import Mathlib

/-!
Verification of the IBKR activity-statement to TradingView CSV converter
(`convert.py`).

The embedding below mirrors the source file:

* Python numbers produced by `float(...)` on decimal strings are modelled as
  rationals (`ℚ`); `float` parsing failure (`ValueError`) and missing dict
  keys (`KeyError`) are modelled with `Except String`.
* A Python dict built with `dict(zip(keys, vals))` is modelled as the
  association list `List (String × String)` with a last-binding-wins lookup
  (`dictGet`), matching dict insertion semantics.
* Python's `str(int)` formatting (used by the f-string `f"{h}_{n}"`) is
  modelled by `natStr`, decimal digits most significant first.
* Python's stable `list.sort` is modelled by `List.mergeSort`.
-/

deriving instance DecidableEq for Except

/-- Ascii whitespace recognised by Python's `str.strip()`. -/
def isPySpace (c : Char) : Bool :=
  c = ' ' || c = '\t' || c = '\n' || c = '\r' || c = '\x0b' || c = '\x0c'

/-- Model of Python's `str.strip()`: drop whitespace from both ends. -/
def pyStrip (s : String) : String :=
  ⟨((s.data.dropWhile isPySpace).reverse.dropWhile isPySpace).reverse⟩

/-- Decimal digit character for `n < 10` (model of `str(int)` digits). -/
def digitChar (n : Nat) : Char :=
  match n with
  | 0 => '0' | 1 => '1' | 2 => '2' | 3 => '3' | 4 => '4'
  | 5 => '5' | 6 => '6' | 7 => '7' | 8 => '8' | 9 => '9'
  | _ => '*'

/-- Decimal digits of `n`, most significant first; `fuel` bounds recursion. -/
def natDigsAux : Nat → Nat → List Char
  | 0, _ => []
  | fuel + 1, n =>
    if n < 10 then [digitChar n]
    else natDigsAux fuel (n / 10) ++ [digitChar (n % 10)]

/-- Model of Python's `str` on a non-negative integer. -/
def natStr (n : Nat) : String := ⟨natDigsAux (n + 1) n⟩

/-- Numeric value of a digit character. -/
def digitVal (c : Char) : Nat := c.toNat - 48

/-- Value of a most-significant-first digit list. -/
def evalDigs (cs : List Char) : Nat := cs.foldl (fun a c => 10 * a + digitVal c) 0

/-- Value of a digit list as a natural number (used by the number parser). -/
def digitsToNat (cs : List Char) : Nat := cs.foldl (fun a c => 10 * a + digitVal c) 0

/-- Parse an unsigned decimal literal (digits with an optional dot). -/
def parseUnsigned (cs : List Char) : Option ℚ :=
  let intPart := cs.takeWhile (fun c => c ≠ '.')
  match cs.dropWhile (fun c => c ≠ '.') with
  | [] =>
    if !intPart.isEmpty && intPart.all Char.isDigit then
      some ((digitsToNat intPart : ℚ))
    else none
  | _ :: fracPart =>
    if (!intPart.isEmpty || !fracPart.isEmpty)
        && intPart.all Char.isDigit && fracPart.all Char.isDigit then
      some ((digitsToNat intPart : ℚ)
        + (digitsToNat fracPart : ℚ) / ((10 : ℚ) ^ fracPart.length))
    else none

/-- Model of Python's `float(...)` on the decimal strings the converter
meets: optional sign, digits, optional fractional part, surrounding
whitespace tolerated; `none` models `ValueError`. -/
def parseNum (s : String) : Option ℚ :=
  match (pyStrip s).data with
  | '-' :: rest => (parseUnsigned rest).map (fun q => -q)
  | '+' :: rest => parseUnsigned rest
  | cs => parseUnsigned cs

/-- A raw record: association list from (deduplicated) field name to value. -/
abbrev RawRecord := List (String × String)

/-- Lookup in an association list with Python-dict semantics: the value of
the last binding of the key wins, `none` when the key is absent. -/
def dictGet (r : RawRecord) (k : String) : Option String :=
  r.foldl (fun acc kv => if kv.1 = k then some kv.2 else acc) none

/-- The renamed form of the occurrence of header `h` carrying counter `k`
(`convert.py` lines 88-94): the first occurrence keeps its name, later
ones get the suffix produced by the f-string `f"{h}_{k}"`. -/
def renameDup (h : String) (k : Nat) : String :=
  if k = 1 then h else h ++ "_" ++ natStr k

/-- Header deduplication loop of `parse_activity_statement`
(`convert.py` lines 86-94); `seen` models the `seen_headers` dict,
with `seen h = 0` standing for an absent key. -/
def dedupHdrAux (seen : String → Nat) : List String → List String
  | [] => []
  | h :: hs =>
    if seen h ≠ 0 then
      (h ++ "_" ++ natStr (seen h + 1))
        :: dedupHdrAux (fun x => if x = h then seen h + 1 else seen x) hs
    else
      h :: dedupHdrAux (fun x => if x = h then 1 else seen x) hs

/-- Header deduplication pass (starts from an empty `seen_headers`). -/
def dedupHeaders (hs : List String) : List String := dedupHdrAux (fun _ => 0) hs

/-- Padding of a Data row to the header length (`convert.py` lines 101-102):
append empty strings while the row is shorter than the header. -/
def padData (ds : List String) (n : Nat) : List String :=
  ds ++ List.replicate (n - ds.length) ""

/-- Build a raw record from the active header and a Data row's trailing
fields (`convert.py` line 103): `dict(zip(current_headers, data))`;
`zip` drops excess data fields. -/
def buildRecord (headers ds : List String) : RawRecord :=
  headers.zip (padData ds headers.length)

/-- Normalized output record (one row of the TradingView CSV). The
`Commission` cell holds either a number or the empty string in the source;
`none` models the empty string. -/
structure TVRow where
  symbol : String
  side : String
  qty : ℚ
  fillPrice : String
  commission : Option ℚ
  closingTime : String
deriving DecidableEq, Inhabited

/-- The `EXCHANGE_MAP` table of `convert.py`. -/
def EXCHANGE_MAP : List (String × String) :=
  [("NASDAQ", "NASDAQ"), ("NYSE", "NYSE"), ("AMEX", "AMEX"),
   ("SEHK", "HKEX"), ("ARCA", "AMEX")]

/-- Python `dict.get(k, d)` over an association list with unique keys. -/
def assocGetD (m : List (String × String)) (k d : String) : String :=
  match m.find? (fun kv => kv.1 == k) with
  | some kv => kv.2
  | none => d

/-- Model of `get_tv_symbol` (`convert.py` lines 52-59). -/
def get_tv_symbol (symbol currency : String) (m : List (String × String)) : String :=
  if currency = "HKD" then "HKEX:" ++ symbol
  else assocGetD m symbol "NASDAQ" ++ ":" ++ symbol

/-- Model of the specific call `.replace(", ", " ")` on a timestamp
(`convert.py` line 129): replace each non-overlapping occurrence of a
comma followed by a space, left to right. -/
def replaceCommaSpaceAux : List Char → List Char
  | [] => []
  | ',' :: ' ' :: rest => ' ' :: replaceCommaSpaceAux rest
  | c :: rest => c :: replaceCommaSpaceAux rest

/-- String form of `replaceCommaSpaceAux`. -/
def replaceCommaSpace (s : String) : String := ⟨replaceCommaSpaceAux s.data⟩

/-- The commission computation of `convert_trades` (`convert.py` line 126):
the empty commission cell stays empty (modelled `none`), any other cell is
parsed and its absolute value kept. -/
def parse_commission (comm0 : String) : Except String (Option ℚ) :=
  if pyStrip comm0 = "" then .ok none
  else
    match parseNum comm0 with
    | none => .error "ValueError: 佣金/税"
    | some c => .ok (some |c|)

/-- The body of the `convert_trades` loop for one record that passed both
filters (`convert.py` lines 118-138). Evaluation order of the lookups and
parses follows the source; an error models the Python exception. -/
def convert_trade_row (m : List (String × String)) (r : RawRecord) :
    Except String TVRow :=
  match dictGet r "代码" with
  | none => .error "KeyError: 代码"
  | some sym0 =>
  match dictGet r "货币" with
  | none => .error "KeyError: 货币"
  | some cur0 =>
  let tv_symbol := get_tv_symbol (pyStrip sym0) (pyStrip cur0) m
  match dictGet r "数量" with
  | none => .error "KeyError: 数量"
  | some qty0 =>
  match parseNum qty0 with
  | none => .error "ValueError: 数量"
  | some qty_raw =>
  let side := if 0 < qty_raw then "Buy" else "Sell"
  let qty := |qty_raw|
  match dictGet r "交易价格" with
  | none => .error "KeyError: 交易价格"
  | some price0 =>
  let price := pyStrip price0
  match dictGet r "佣金/税" with
  | none => .error "KeyError: 佣金/税"
  | some comm0 =>
  match parse_commission comm0 with
  | .error e => .error e
  | .ok commission =>
  match dictGet r "日期/时间" with
  | none => .error "KeyError: 日期/时间"
  | some dt0 =>
  let dt := replaceCommaSpace (pyStrip dt0)
  .ok { symbol := tv_symbol, side := side, qty := qty, fillPrice := price,
        commission := commission, closingTime := dt }

/-- The two category filters of `convert_trades`
(`convert.py` lines 113-116), as one boolean predicate. -/
def trade_filter (r : RawRecord) : Bool :=
  decide (dictGet r "DataDiscriminator" = some "Order")
    && decide (dictGet r "资产分类" = some "股票")

/-- Model of `convert_trades` (`convert.py` lines 109-139): records failing
either filter are skipped, the rest are converted in order; a conversion
error aborts the whole call, as the Python exception aborts the run. -/
def convert_trades (m : List (String × String)) :
    List RawRecord → Except String (List TVRow)
  | [] => .ok []
  | r :: rs =>
    if dictGet r "DataDiscriminator" ≠ some "Order" then convert_trades m rs
    else if dictGet r "资产分类" ≠ some "股票" then convert_trades m rs
    else
      match convert_trade_row m r with
      | .error e => .error e
      | .ok row =>
        match convert_trades m rs with
        | .error e => .error e
        | .ok rest => .ok (row :: rest)

/-- Generic loop shared by the three cash-style converters: each record
either errors, is skipped, or contributes one row, in input order. -/
def convert_rows (f : RawRecord → Except String (Option TVRow)) :
    List RawRecord → Except String (List TVRow)
  | [] => .ok []
  | r :: rs =>
    match f r with
    | .error e => .error e
    | .ok none => convert_rows f rs
    | .ok (some row) =>
      match convert_rows f rs with
      | .error e => .error e
      | .ok rest => .ok (row :: rest)

/-- Body of the `convert_cash_transactions` loop (`convert.py` lines
148-175): skip on empty description or amount, then parse the amount;
positive amounts give a Deposit, other amounts a Withdrawal of the
absolute value. -/
def convert_cash_row (r : RawRecord) : Except String (Option TVRow) :=
  let desc := pyStrip ((dictGet r "描述").getD "")
  if desc = "" then .ok none else
  let amount_str := pyStrip ((dictGet r "金额").getD "")
  if amount_str = "" then .ok none else
  match parseNum amount_str with
  | none => .error "ValueError: 金额"
  | some amount =>
    let dt0 := pyStrip ((dictGet r "结算日期").getD "")
    let dt := if dt0 = "" then dt0 else dt0 ++ " 0:00:00"
    if 0 < amount then
      .ok (some { symbol := "$CASH", side := "Deposit", qty := amount,
                  fillPrice := "", commission := none, closingTime := dt })
    else
      .ok (some { symbol := "$CASH", side := "Withdrawal", qty := |amount|,
                  fillPrice := "", commission := none, closingTime := dt })

/-- Model of `convert_cash_transactions` (`convert.py` lines 142-176); the
`side_label` parameter is carried from the source but unused there too. -/
def convert_cash_transactions (_side_label : String) (rs : List RawRecord) :
    Except String (List TVRow) :=
  convert_rows convert_cash_row rs

/-- Body of the `convert_dividends` loop (`convert.py` lines 182-204):
skip on empty description or amount or a non-positive amount. -/
def convert_dividend_row (r : RawRecord) : Except String (Option TVRow) :=
  let desc := pyStrip ((dictGet r "描述").getD "")
  if desc = "" then .ok none else
  let amount_str := pyStrip ((dictGet r "金额").getD "")
  if amount_str = "" then .ok none else
  match parseNum amount_str with
  | none => .error "ValueError: 金额"
  | some amount =>
    if amount ≤ 0 then .ok none else
    let dt0 := pyStrip ((dictGet r "日期").getD "")
    let dt := if dt0 = "" then dt0 else dt0 ++ " 0:00:00"
    .ok (some { symbol := "$CASH", side := "Dividend", qty := amount,
                fillPrice := "", commission := none, closingTime := dt })

/-- Model of `convert_dividends` (`convert.py` lines 179-205). -/
def convert_dividends (rs : List RawRecord) : Except String (List TVRow) :=
  convert_rows convert_dividend_row rs

/-- Body of the `convert_taxes` loop (`convert.py` lines 210-233):
skip on empty description or amount or a non-negative amount. -/
def convert_tax_row (r : RawRecord) : Except String (Option TVRow) :=
  let desc := pyStrip ((dictGet r "描述").getD "")
  if desc = "" then .ok none else
  let amount_str := pyStrip ((dictGet r "金额").getD "")
  if amount_str = "" then .ok none else
  match parseNum amount_str with
  | none => .error "ValueError: 金额"
  | some amount =>
    if 0 ≤ amount then .ok none else
    let dt0 := pyStrip ((dictGet r "日期").getD "")
    let dt := if dt0 = "" then dt0 else dt0 ++ " 0:00:00"
    .ok (some { symbol := "$CASH", side := "Taxes and fees", qty := |amount|,
                fillPrice := "", commission := none, closingTime := dt })

/-- Model of `convert_taxes` (`convert.py` lines 208-234). -/
def convert_taxes (rs : List RawRecord) : Except String (List TVRow) :=
  convert_rows convert_tax_row rs

/-- Model of `process_activity_statement` after parsing (`convert.py`
lines 237-247): run the four converters on their sections and concatenate
in the fixed order trades, cash, dividends, taxes. -/
def process_sections (m : List (String × String))
    (trades cash divs taxes : List RawRecord) : Except String (List TVRow) :=
  match convert_trades m trades with
  | .error e => .error e
  | .ok a =>
  match convert_cash_transactions "" cash with
  | .error e => .error e
  | .ok b =>
  match convert_dividends divs with
  | .error e => .error e
  | .ok c =>
  match convert_taxes taxes with
  | .error e => .error e
  | .ok d => .ok (a ++ b ++ c ++ d)

/-- The merger's identity key (`convert.py` line 273): Commission is
deliberately excluded. -/
abbrev DedupKey := String × String × ℚ × String × String

/-- Key extraction for deduplication. -/
def dedup_key (r : TVRow) : DedupKey :=
  (r.symbol, r.side, r.qty, r.fillPrice, r.closingTime)

/-- The dedup loop of `main` (`convert.py` lines 270-276); `seen` models
the `seen` set (only membership is ever used). -/
def dedup_rows_aux (seen : List DedupKey) : List TVRow → List TVRow
  | [] => []
  | r :: rs =>
    if dedup_key r ∈ seen then dedup_rows_aux seen rs
    else r :: dedup_rows_aux (dedup_key r :: seen) rs

/-- Cross-file deduplication, starting from an empty `seen` set. -/
def dedup_rows (rows : List TVRow) : List TVRow := dedup_rows_aux [] rows

/-- The `seen` set as it stands after the dedup loop has consumed a list. -/
def dedup_seen (seen : List DedupKey) : List TVRow → List DedupKey
  | [] => seen
  | r :: rs =>
    if dedup_key r ∈ seen then dedup_seen seen rs
    else dedup_seen (dedup_key r :: seen) rs

/-- The sort key of `main` (`convert.py` line 279): the lambda
`r["Closing Time"] or ""` maps the empty string to itself and any other
string to itself. -/
def sort_key (r : TVRow) : String :=
  if r.closingTime = "" then "" else r.closingTime

/-- Boolean comparison used for sorting (lexicographic on strings). -/
def row_le (a b : TVRow) : Bool := decide (sort_key a ≤ sort_key b)

/-- Model of `deduped.sort(key=...)` (`convert.py` line 279): Python's
stable sort, modelled by stable merge sort. -/
def sort_rows (rows : List TVRow) : List TVRow := rows.mergeSort row_le

/-- Sample trade Data row with quantity -50 (spec's sign-rule example). -/
def sampleSellRec : RawRecord :=
  [("DataDiscriminator", "Order"), ("资产分类", "股票"), ("代码", "AAPL"),
   ("货币", "USD"), ("数量", "-50"), ("交易价格", "100.5"),
   ("佣金/税", "-1"), ("日期/时间", "2025-08-14, 11:32:43")]

/-- Sample trade Data row with quantity 50. -/
def sampleBuyRec : RawRecord :=
  [("DataDiscriminator", "Order"), ("资产分类", "股票"), ("代码", "AAPL"),
   ("货币", "USD"), ("数量", "50"), ("交易价格", "100.5"),
   ("佣金/税", "-1"), ("日期/时间", "2025-08-14, 11:32:43")]

/-- Sample trade Data row with quantity 0. -/
def sampleZeroRec : RawRecord :=
  [("DataDiscriminator", "Order"), ("资产分类", "股票"), ("代码", "AAPL"),
   ("货币", "USD"), ("数量", "0"), ("交易价格", "100.5"),
   ("佣金/税", "-1"), ("日期/时间", "2025-08-14, 11:32:43")]

/-- Summary trade row (fails the discriminator filter). -/
def sampleSummaryRec : RawRecord :=
  [("DataDiscriminator", "SubTotal"), ("资产分类", "股票"), ("代码", "AAPL"),
   ("货币", "USD"), ("数量", "50"), ("交易价格", "100.5"),
   ("佣金/税", "-1"), ("日期/时间", "2025-08-14, 11:32:43")]

/-- Normalized record produced from `sampleSellRec`. -/
def sampleSellRow : TVRow :=
  { symbol := "NASDAQ:AAPL", side := "Sell", qty := 50, fillPrice := "100.5",
    commission := some 1, closingTime := "2025-08-14 11:32:43" }

/-- Normalized record produced from `sampleBuyRec`. -/
def sampleBuyRow : TVRow :=
  { symbol := "NASDAQ:AAPL", side := "Buy", qty := 50, fillPrice := "100.5",
    commission := some 1, closingTime := "2025-08-14 11:32:43" }

/-- Normalized record produced from `sampleZeroRec`. -/
def sampleZeroRow : TVRow :=
  { symbol := "NASDAQ:AAPL", side := "Sell", qty := 0, fillPrice := "100.5",
    commission := some 1, closingTime := "2025-08-14 11:32:43" }

/-- A merged trade row as produced from a first statement file. -/
def sampleMergeRowA : TVRow :=
  { symbol := "NASDAQ:AAPL", side := "Buy", qty := 50, fillPrice := "100.5",
    commission := some 1, closingTime := "2025-08-14 11:32:43" }

/-- The same trade as seen in a second, overlapping statement file: the
five identity fields agree with `sampleMergeRowA`, Commission differs. -/
def sampleMergeRowB : TVRow :=
  { symbol := "NASDAQ:AAPL", side := "Buy", qty := 50, fillPrice := "100.5",
    commission := some 2, closingTime := "2025-08-14 11:32:43" }

/-- Trade Data row passing both filters whose quantity cell is not a
number. -/
def badQtyRec : RawRecord :=
  [("DataDiscriminator", "Order"), ("资产分类", "股票"), ("代码", "AAPL"),
   ("货币", "USD"), ("数量", "N/A"), ("交易价格", "100.5"),
   ("佣金/税", "-1"), ("日期/时间", "2025-08-14, 11:32:43")]

/-- Cash Data row with a description and a non-numeric amount cell. -/
def badCashRec : RawRecord :=
  [("描述", "WIRE IN"), ("金额", "abc"), ("结算日期", "2025-08-14")]

/-- Trade Data row passing both filters but missing the quantity field. -/
def missingQtyRec : RawRecord :=
  [("DataDiscriminator", "Order"), ("资产分类", "股票"), ("代码", "AAPL"),
   ("货币", "USD"), ("交易价格", "100.5"),
   ("佣金/税", "-1"), ("日期/时间", "2025-08-14, 11:32:43")]

/-! ## Helper lemmas: decimal formatting -/

theorem evalDigs_append (l : List Char) (c : Char) :
    evalDigs (l ++ [c]) = 10 * evalDigs l + digitVal c := by
  simp [evalDigs, List.foldl_append]

theorem digitVal_digitChar {n : Nat} (h : n < 10) : digitVal (digitChar n) = n := by
  interval_cases n <;> rfl

theorem evalDigs_natDigsAux : ∀ (fuel n : Nat), n < fuel →
    evalDigs (natDigsAux fuel n) = n := by
  intro fuel
  induction fuel with
  | zero => intro n h; omega
  | succ fuel ih =>
    intro n h
    rw [natDigsAux]
    by_cases h10 : n < 10
    · rw [if_pos h10]
      simp [evalDigs, digitVal_digitChar h10]
    · have hd : n / 10 < fuel := by
        have := Nat.div_lt_self (by omega : 0 < n) (by omega : 1 < 10)
        omega
      rw [if_neg h10, evalDigs_append, ih _ hd,
        digitVal_digitChar (Nat.mod_lt _ (by omega))]
      omega

theorem strData_inj {s1 s2 : String} (h : s1.data = s2.data) : s1 = s2 :=
  congrArg String.mk h

theorem natStr_inj {a b : Nat} (h : natStr a = natStr b) : a = b := by
  have h2 : natDigsAux (a + 1) a = natDigsAux (b + 1) b := congrArg String.data h
  have ha := evalDigs_natDigsAux (a + 1) a (Nat.lt_succ_self a)
  have hb := evalDigs_natDigsAux (b + 1) b (Nat.lt_succ_self b)
  rw [← ha, ← hb, h2]

/-! ## Helper lemmas: header deduplication -/

theorem sep_inj : ∀ (l1 l2 s1 s2 : List Char), '_' ∉ l1 → '_' ∉ l2 →
    l1 ++ '_' :: s1 = l2 ++ '_' :: s2 → l1 = l2 ∧ s1 = s2 := by
  intro l1
  induction l1 with
  | nil =>
    intro l2 s1 s2 _ h2 heq
    cases l2 with
    | nil => simpa using heq
    | cons c cs =>
      simp only [List.nil_append, List.cons_append, List.cons.injEq] at heq
      exact absurd (heq.1 ▸ List.mem_cons_self c cs) h2
  | cons a l1 ih =>
    intro l2 s1 s2 h1 h2 heq
    cases l2 with
    | nil =>
      simp only [List.nil_append, List.cons_append, List.cons.injEq] at heq
      exact absurd (heq.1 ▸ List.mem_cons_self a l1) h1
    | cons b l2 =>
      simp only [List.cons_append, List.cons.injEq] at heq
      obtain ⟨hab, htail⟩ := heq
      have h1' : '_' ∉ l1 := fun hm => h1 (List.mem_cons_of_mem _ hm)
      have h2' : '_' ∉ l2 := fun hm => h2 (List.mem_cons_of_mem _ hm)
      obtain ⟨he, hs⟩ := ih l2 s1 s2 h1' h2' htail
      exact ⟨by rw [hab, he], hs⟩

theorem data_renameDup {h : String} {k : Nat} (hk : k ≠ 1) :
    (renameDup h k).data = h.data ++ '_' :: (natStr k).data := by
  simp [renameDup, hk, String.data_append]

theorem renameDup_inj {h1 h2 : String} {k1 k2 : Nat}
    (n1 : '_' ∉ h1.data) (n2 : '_' ∉ h2.data)
    (heq : renameDup h1 k1 = renameDup h2 k2) : h1 = h2 ∧ k1 = k2 := by
  by_cases e1 : k1 = 1 <;> by_cases e2 : k2 = 1
  · rw [e1, e2]
    simp only [renameDup, if_pos rfl] at heq
    rw [e1, e2] at heq
    simp [renameDup] at heq
    exact ⟨heq, rfl⟩
  · exfalso
    have hd : h1.data = h2.data ++ '_' :: (natStr k2).data := by
      rw [← data_renameDup e2, ← heq]
      simp [renameDup, e1]
    exact n1 (hd ▸ List.mem_append_right _ (List.mem_cons_self _ _))
  · exfalso
    have hd : h2.data = h1.data ++ '_' :: (natStr k1).data := by
      rw [← data_renameDup e1, heq]
      simp [renameDup, e2]
    exact n2 (hd ▸ List.mem_append_right _ (List.mem_cons_self _ _))
  · have hdata : h1.data ++ '_' :: (natStr k1).data
        = h2.data ++ '_' :: (natStr k2).data := by
      rw [← data_renameDup e1, ← data_renameDup e2, heq]
    obtain ⟨hh, hs⟩ := sep_inj _ _ _ _ n1 n2 hdata
    exact ⟨strData_inj hh, natStr_inj (strData_inj hs)⟩

theorem dedupHdrAux_cons (seen : String → Nat) (h : String) (hs : List String) :
    dedupHdrAux seen (h :: hs)
      = renameDup h (seen h + 1)
        :: dedupHdrAux (fun x => if x = h then seen h + 1 else seen x) hs := by
  by_cases h0 : seen h = 0
  · have hupd : (fun x => if x = h then 1 else seen x)
        = (fun x => if x = h then seen h + 1 else seen x) := by
      funext x
      by_cases hx : x = h <;> simp [hx, h0]
    simp only [dedupHdrAux, h0, ne_eq, not_true_eq_false, if_false, hupd]
    simp [renameDup, h0]
  · simp only [dedupHdrAux, ne_eq, h0, not_false_eq_true, if_true]
    have : seen h + 1 ≠ 1 := by omega
    simp [renameDup, this]

theorem dedupHdrAux_length : ∀ (hs : List String) (seen : String → Nat),
    (dedupHdrAux seen hs).length = hs.length := by
  intro hs
  induction hs with
  | nil => intro seen; rfl
  | cons a t ih =>
    intro seen
    rw [dedupHdrAux_cons]
    simp [ih]

theorem dedupHdrAux_mem : ∀ (hs : List String) (seen : String → Nat) (nm : String),
    nm ∈ dedupHdrAux seen hs →
    ∃ h, h ∈ hs ∧ ∃ k, seen h + 1 ≤ k ∧ nm = renameDup h k := by
  intro hs
  induction hs with
  | nil => intro seen nm hmem; simp [dedupHdrAux] at hmem
  | cons a t ih =>
    intro seen nm hmem
    rw [dedupHdrAux_cons] at hmem
    rcases List.mem_cons.mp hmem with rfl | hmem
    · exact ⟨a, List.mem_cons_self a t, seen a + 1, le_refl _, rfl⟩
    · obtain ⟨h, hht, k, hk, rfl⟩ := ih _ nm hmem
      refine ⟨h, List.mem_cons_of_mem _ hht, k, ?_, rfl⟩
      by_cases hha : h = a
      · subst hha; simp at hk; omega
      · simpa [hha] using hk

theorem dedupHdrAux_nodup : ∀ (hs : List String) (seen : String → Nat),
    (∀ h ∈ hs, '_' ∉ h.data) → (dedupHdrAux seen hs).Nodup := by
  intro hs
  induction hs with
  | nil => intro seen _; simp [dedupHdrAux]
  | cons a t ih =>
    intro seen hus
    rw [dedupHdrAux_cons]
    refine List.nodup_cons.mpr
      ⟨?_, ih _ (fun h hh => hus h (List.mem_cons_of_mem _ hh))⟩
    intro hmem
    obtain ⟨h, hht, k, hk, heq⟩ := dedupHdrAux_mem t _ _ hmem
    obtain ⟨rfl, hkk⟩ := renameDup_inj (hus a (List.mem_cons_self _ _))
      (hus h (List.mem_cons_of_mem _ hht)) heq
    simp at hk
    omega

theorem dedupHdrAux_getD : ∀ (hs : List String) (seen : String → Nat) (i : Nat),
    i < hs.length →
    (dedupHdrAux seen hs).getD i ""
      = renameDup (hs.getD i "")
          (seen (hs.getD i "") + (hs.take (i + 1)).count (hs.getD i "")) := by
  intro hs
  induction hs with
  | nil => intro seen i hi; simp at hi
  | cons a t ih =>
    intro seen i hi
    rw [dedupHdrAux_cons]
    cases i with
    | zero =>
      simp [List.count_cons]
    | succ i =>
      have hi' : i < t.length := by simpa using hi
      rw [List.getD_cons_succ, List.getD_cons_succ, ih _ i hi',
        List.take_succ_cons, List.count_cons]
      congr 1
      by_cases hxa : t.getD i "" = a
      · rw [if_pos hxa, hxa]
        simp only [beq_self_eq_true, if_true]
        omega
      · rw [if_neg hxa]
        have hne : ¬((a == t.getD i "") = true) := by
          simp only [beq_iff_eq]
          exact fun e => hxa e.symm
        rw [if_neg hne]
        omega

/-! ## Helper lemmas: the merger's deduplication loop -/

theorem dedup_rows_aux_sublist : ∀ (xs : List TVRow) (seen : List DedupKey),
    (dedup_rows_aux seen xs).Sublist xs := by
  intro xs
  induction xs with
  | nil => intro seen; simp [dedup_rows_aux]
  | cons r rs ih =>
    intro seen
    by_cases hm : dedup_key r ∈ seen
    · simp only [dedup_rows_aux, if_pos hm]
      exact (ih seen).cons r
    · simp only [dedup_rows_aux, if_neg hm]
      exact (ih _).cons₂ r

theorem dedup_rows_aux_keys : ∀ (xs : List TVRow) (seen : List DedupKey),
    ((dedup_rows_aux seen xs).map dedup_key).Nodup
    ∧ ∀ k ∈ (dedup_rows_aux seen xs).map dedup_key, k ∉ seen := by
  intro xs
  induction xs with
  | nil => intro seen; simp [dedup_rows_aux]
  | cons r rs ih =>
    intro seen
    by_cases hm : dedup_key r ∈ seen
    · simp only [dedup_rows_aux, if_pos hm]
      exact ih seen
    · simp only [dedup_rows_aux, if_neg hm, List.map_cons]
      obtain ⟨ihn, ihs⟩ := ih (dedup_key r :: seen)
      refine ⟨List.nodup_cons.mpr ⟨?_, ihn⟩, ?_⟩
      · intro hk
        exact (ihs _ hk) (List.mem_cons_self _ _)
      · intro k hk hkseen
        rcases List.mem_cons.mp hk with rfl | hk2
        · exact hm hkseen
        · exact ihs k hk2 (List.mem_cons_of_mem _ hkseen)

theorem dedup_rows_aux_covers : ∀ (xs : List TVRow) (seen : List DedupKey) (r : TVRow),
    r ∈ xs →
    dedup_key r ∈ seen ∨ ∃ s ∈ dedup_rows_aux seen xs, dedup_key s = dedup_key r := by
  intro xs
  induction xs with
  | nil => intro seen r hr; simp at hr
  | cons r0 rs ih =>
    intro seen r hr
    by_cases hm : dedup_key r0 ∈ seen
    · simp only [dedup_rows_aux, if_pos hm]
      rcases List.mem_cons.mp hr with rfl | hr2
      · exact Or.inl hm
      · exact ih seen r hr2
    · simp only [dedup_rows_aux, if_neg hm]
      rcases List.mem_cons.mp hr with rfl | hr2
      · exact Or.inr ⟨r, List.mem_cons_self _ _, rfl⟩
      · rcases ih (dedup_key r0 :: seen) r hr2 with hin | ⟨s, hs, hkey⟩
        · rcases List.mem_cons.mp hin with heq | hin2
          · exact Or.inr ⟨r0, List.mem_cons_self _ _, heq.symm⟩
          · exact Or.inl hin2
        · exact Or.inr ⟨s, List.mem_cons_of_mem _ hs, hkey⟩

theorem dedup_rows_aux_first : ∀ (xs : List TVRow) (seen : List DedupKey) (r : TVRow),
    r ∈ dedup_rows_aux seen xs →
    dedup_key r ∉ seen
    ∧ ∃ l1 l2, xs = l1 ++ r :: l2 ∧ ∀ y ∈ l1, dedup_key y ≠ dedup_key r := by
  intro xs
  induction xs with
  | nil => intro seen r hr; simp [dedup_rows_aux] at hr
  | cons r0 rs ih =>
    intro seen r hr
    by_cases hm : dedup_key r0 ∈ seen
    · simp only [dedup_rows_aux, if_pos hm] at hr
      obtain ⟨hns, l1, l2, heq, hfirst⟩ := ih seen r hr
      refine ⟨hns, r0 :: l1, l2, by rw [heq, List.cons_append], ?_⟩
      intro y hy
      rcases List.mem_cons.mp hy with rfl | hy2
      · exact fun hk => hns (hk ▸ hm)
      · exact hfirst y hy2
    · simp only [dedup_rows_aux, if_neg hm] at hr
      rcases List.mem_cons.mp hr with rfl | hr2
      · exact ⟨hm, [], rs, rfl, by simp⟩
      · obtain ⟨hns, l1, l2, heq, hfirst⟩ := ih _ r hr2
        have hns2 : dedup_key r ∉ seen := fun hk => hns (List.mem_cons_of_mem _ hk)
        have hner0 : dedup_key r ≠ dedup_key r0 :=
          fun hk => hns (hk ▸ List.mem_cons_self _ _)
        refine ⟨hns2, r0 :: l1, l2, by rw [heq, List.cons_append], ?_⟩
        intro y hy
        rcases List.mem_cons.mp hy with rfl | hy2
        · exact fun hk => hner0 hk.symm
        · exact hfirst y hy2

theorem dedup_rows_aux_append : ∀ (xs ys : List TVRow) (seen : List DedupKey),
    dedup_rows_aux seen (xs ++ ys)
      = dedup_rows_aux seen xs ++ dedup_rows_aux (dedup_seen seen xs) ys := by
  intro xs
  induction xs with
  | nil => intro ys seen; simp [dedup_rows_aux, dedup_seen]
  | cons r rs ih =>
    intro ys seen
    by_cases hm : dedup_key r ∈ seen
    · simp only [List.cons_append, dedup_rows_aux, dedup_seen, if_pos hm]
      exact ih ys seen
    · simp only [List.cons_append, dedup_rows_aux, dedup_seen, if_neg hm]
      exact congrArg (List.cons r) (ih ys (dedup_key r :: seen))

theorem mem_dedup_seen : ∀ (xs : List TVRow) (seen : List DedupKey) (k : DedupKey),
    k ∈ dedup_seen seen xs ↔ k ∈ seen ∨ k ∈ xs.map dedup_key := by
  intro xs
  induction xs with
  | nil => intro seen k; simp [dedup_seen]
  | cons r rs ih =>
    intro seen k
    by_cases hm : dedup_key r ∈ seen
    · simp only [dedup_seen, if_pos hm, ih, List.map_cons, List.mem_cons]
      constructor
      · rintro (h | h)
        · exact Or.inl h
        · exact Or.inr (Or.inr h)
      · rintro (h | h | h)
        · exact Or.inl h
        · exact Or.inl (h ▸ hm)
        · exact Or.inr h
    · simp only [dedup_seen, if_neg hm, ih, List.map_cons, List.mem_cons]
      tauto

theorem dedup_rows_aux_all_seen : ∀ (ys : List TVRow) (seen : List DedupKey),
    (∀ r ∈ ys, dedup_key r ∈ seen) → dedup_rows_aux seen ys = [] := by
  intro ys
  induction ys with
  | nil => intro seen _; rfl
  | cons r rs ih =>
    intro seen hall
    have hm : dedup_key r ∈ seen := hall r (List.mem_cons_self _ _)
    simp only [dedup_rows_aux, if_pos hm]
    exact ih seen (fun y hy => hall y (List.mem_cons_of_mem _ hy))

/-! ## Helper lemmas: sorting -/

theorem row_le_trans : ∀ (a b c : TVRow), row_le a b → row_le b c → row_le a c := by
  intro a b c hab hbc
  simp only [row_le, decide_eq_true_eq] at *
  exact le_trans hab hbc

theorem row_le_total : ∀ (a b : TVRow), (row_le a b || row_le b a) = true := by
  intro a b
  simp only [row_le, Bool.or_eq_true, decide_eq_true_eq]
  exact le_total _ _

theorem str_le_empty {s : String} (h : s ≤ "") : s = "" := by
  rw [String.le_iff_toList_le] at h
  cases hs : s.toList with
  | nil => exact strData_inj hs
  | cons c cs =>
    rw [hs] at h
    exact absurd (List.nil_lt_cons c cs) (not_lt.mpr h)

theorem sort_rows_pairwise (xs : List TVRow) :
    (sort_rows xs).Pairwise (fun a b => sort_key a ≤ sort_key b) := by
  have hp := List.sorted_mergeSort row_le_trans row_le_total xs
  refine hp.imp ?_
  intro a b h
  simpa only [row_le, decide_eq_true_eq] using h

theorem sort_rows_filter (xs : List TVRow) (t : String) :
    (sort_rows xs).filter (fun r => decide (sort_key r = t))
      = xs.filter (fun r => decide (sort_key r = t)) := by
  have hpair : (xs.filter (fun r => decide (sort_key r = t))).Pairwise
      (fun a b => row_le a b = true) := by
    apply List.pairwise_of_forall_mem_list
    intro a ha b hb
    have ha2 := (List.mem_filter.mp ha).2
    have hb2 := (List.mem_filter.mp hb).2
    simp only [decide_eq_true_eq] at ha2 hb2
    simp only [row_le, decide_eq_true_eq]
    rw [ha2, hb2]
  have hsub : (xs.filter (fun r => decide (sort_key r = t))).Sublist (sort_rows xs) :=
    List.sublist_mergeSort row_le_trans row_le_total hpair (List.filter_sublist xs)
  have hself : (xs.filter (fun r => decide (sort_key r = t))).filter
      (fun r => decide (sort_key r = t)) = xs.filter (fun r => decide (sort_key r = t)) :=
    List.filter_eq_self.mpr (fun a ha => (List.mem_filter.mp ha).2)
  have hsub2 : (xs.filter (fun r => decide (sort_key r = t))).Sublist
      ((sort_rows xs).filter (fun r => decide (sort_key r = t))) := by
    have := hsub.filter (fun r => decide (sort_key r = t))
    rwa [hself] at this
  have hperm : ((sort_rows xs).filter (fun r => decide (sort_key r = t))).Perm
      (xs.filter (fun r => decide (sort_key r = t))) :=
    (List.mergeSort_perm xs row_le).filter _
  exact (hsub2.eq_of_length hperm.length_eq.symm).symm

/-! ## Helper lemmas: the trades converter -/

theorem convert_trade_row_ok {m : List (String × String)} {r : RawRecord} {row : TVRow}
    (h : convert_trade_row m r = Except.ok row) :
    (∃ v, dictGet r "代码" = some v)
    ∧ (∃ v, dictGet r "货币" = some v)
    ∧ (∃ v, dictGet r "交易价格" = some v ∧ row.fillPrice = pyStrip v)
    ∧ (∃ v, dictGet r "佣金/税" = some v)
    ∧ (∃ v, dictGet r "日期/时间" = some v)
    ∧ ∃ s q, dictGet r "数量" = some s ∧ parseNum s = some q
        ∧ row.side = (if 0 < q then "Buy" else "Sell") ∧ row.qty = |q| := by
  unfold convert_trade_row at h
  split at h
  next => exact Except.noConfusion h
  next sym0 h1 =>
  split at h
  next => exact Except.noConfusion h
  next cur0 h2 =>
  split at h
  next => exact Except.noConfusion h
  next qty0 h3 =>
  split at h
  next => exact Except.noConfusion h
  next qty_raw h4 =>
  split at h
  next hq =>
    split at h
    next => exact Except.noConfusion h
    next price0 h5 =>
    split at h
    next => exact Except.noConfusion h
    next comm0 h6 =>
    split at h
    next e h7 => exact Except.noConfusion h
    next commission h7 =>
    split at h
    next => exact Except.noConfusion h
    next dt0 h8 =>
    injection h with hh
    subst hh
    exact ⟨⟨sym0, h1⟩, ⟨cur0, h2⟩, ⟨price0, h5, rfl⟩, ⟨comm0, h6⟩, ⟨dt0, h8⟩,
      qty0, qty_raw, h3, h4, (if_pos hq).symm, rfl⟩
  next hq =>
    split at h
    next => exact Except.noConfusion h
    next price0 h5 =>
    split at h
    next => exact Except.noConfusion h
    next comm0 h6 =>
    split at h
    next e h7 => exact Except.noConfusion h
    next commission h7 =>
    split at h
    next => exact Except.noConfusion h
    next dt0 h8 =>
    injection h with hh
    subst hh
    exact ⟨⟨sym0, h1⟩, ⟨cur0, h2⟩, ⟨price0, h5, rfl⟩, ⟨comm0, h6⟩, ⟨dt0, h8⟩,
      qty0, qty_raw, h3, h4, (if_neg hq).symm, rfl⟩

theorem convert_trades_ok : ∀ (rs : List RawRecord) (m : List (String × String))
    (out : List TVRow), convert_trades m rs = Except.ok out →
    out.length = (rs.filter trade_filter).length
    ∧ ∀ row ∈ out, ∃ r ∈ rs, trade_filter r
        ∧ ∃ s q, dictGet r "数量" = some s ∧ parseNum s = some q
            ∧ row.side = (if 0 < q then "Buy" else "Sell") ∧ row.qty = |q| := by
  intro rs
  induction rs with
  | nil =>
    intro m out h
    simp only [convert_trades] at h
    injection h with hh
    subst hh
    simp
  | cons r rs ih =>
    intro m out h
    simp only [convert_trades] at h
    split at h
    next hd =>
      have hf : trade_filter r = false := by simp [trade_filter, hd]
      obtain ⟨hlen, hmem⟩ := ih m out h
      refine ⟨?_, ?_⟩
      · rw [List.filter_cons, if_neg (by simp [hf])]
        exact hlen
      · intro row hrow
        obtain ⟨r2, hr2, hrest⟩ := hmem row hrow
        exact ⟨r2, List.mem_cons_of_mem _ hr2, hrest⟩
    next hd =>
    split at h
    next ha =>
      have hf : trade_filter r = false := by simp [trade_filter, ha]
      obtain ⟨hlen, hmem⟩ := ih m out h
      refine ⟨?_, ?_⟩
      · rw [List.filter_cons, if_neg (by simp [hf])]
        exact hlen
      · intro row hrow
        obtain ⟨r2, hr2, hrest⟩ := hmem row hrow
        exact ⟨r2, List.mem_cons_of_mem _ hr2, hrest⟩
    next ha =>
    have hd2 : dictGet r "DataDiscriminator" = some "Order" := not_not.mp hd
    have ha2 : dictGet r "资产分类" = some "股票" := not_not.mp ha
    have hf : trade_filter r = true := by simp [trade_filter, hd2, ha2]
    split at h
    next e hcr => exact Except.noConfusion h
    next row0 hcr =>
    split at h
    next e hrest => exact Except.noConfusion h
    next rest hrest =>
    injection h with hh
    subst hh
    obtain ⟨hlen, hmem⟩ := ih m rest hrest
    refine ⟨?_, ?_⟩
    · rw [List.filter_cons, if_pos (by simp [hf])]
      simp [hlen]
    · intro row hrow
      rcases List.mem_cons.mp hrow with rfl | hrow2
      · obtain ⟨_, _, _, _, _, s, q, hs, hq, hside, hqty⟩ := convert_trade_row_ok hcr
        exact ⟨r, List.mem_cons_self _ _, hf, s, q, hs, hq, hside, hqty⟩
      · obtain ⟨r2, hr2, hf2, hrest2⟩ := hmem row hrow2
        exact ⟨r2, List.mem_cons_of_mem _ hr2, hf2, hrest2⟩

/-! ## Helper lemmas: the cash-style converters -/

theorem convert_rows_ok_mem : ∀ (rs : List RawRecord)
    (f : RawRecord → Except String (Option TVRow)) (out : List TVRow),
    convert_rows f rs = Except.ok out →
    ∀ row ∈ out, ∃ r ∈ rs, f r = Except.ok (some row) := by
  intro rs
  induction rs with
  | nil =>
    intro f out h row hrow
    simp only [convert_rows] at h
    injection h with hh
    subst hh
    simp at hrow
  | cons r rs ih =>
    intro f out h row hrow
    simp only [convert_rows] at h
    split at h
    next e hf => exact Except.noConfusion h
    next hf =>
      obtain ⟨r2, hr2, h2⟩ := ih f out h row hrow
      exact ⟨r2, List.mem_cons_of_mem _ hr2, h2⟩
    next row0 hf =>
    split at h
    next e hrest => exact Except.noConfusion h
    next rest hrest =>
    injection h with hh
    subst hh
    rcases List.mem_cons.mp hrow with rfl | hrow2
    · exact ⟨r, List.mem_cons_self _ _, hf⟩
    · obtain ⟨r2, hr2, h2⟩ := ih f rest hrest row hrow2
      exact ⟨r2, List.mem_cons_of_mem _ hr2, h2⟩

theorem convert_cash_row_shape {r : RawRecord} {row : TVRow}
    (h : convert_cash_row r = Except.ok (some row)) :
    (row.side = "Deposit" ∨ row.side = "Withdrawal") ∧ 0 ≤ row.qty
    ∧ row.symbol = "$CASH" := by
  unfold convert_cash_row at h
  dsimp only at h
  split at h
  next => exact Option.noConfusion (Except.ok.inj h)
  next hdesc =>
  split at h
  next => exact Option.noConfusion (Except.ok.inj h)
  next hamt =>
  split at h
  next hp => exact Except.noConfusion h
  next amount hp =>
  split at h
  next hpos =>
    injection h with hh
    injection hh with hh2
    subst hh2
    exact ⟨Or.inl rfl, le_of_lt hpos, rfl⟩
  next hpos =>
    injection h with hh
    injection hh with hh2
    subst hh2
    exact ⟨Or.inr rfl, abs_nonneg _, rfl⟩

theorem convert_dividend_row_shape {r : RawRecord} {row : TVRow}
    (h : convert_dividend_row r = Except.ok (some row)) :
    row.side = "Dividend" ∧ 0 ≤ row.qty ∧ row.symbol = "$CASH" := by
  unfold convert_dividend_row at h
  dsimp only at h
  split at h
  next => exact Option.noConfusion (Except.ok.inj h)
  next hdesc =>
  split at h
  next => exact Option.noConfusion (Except.ok.inj h)
  next hamt =>
  split at h
  next hp => exact Except.noConfusion h
  next amount hp =>
  split at h
  next hnp => exact Option.noConfusion (Except.ok.inj h)
  next hnp =>
  injection h with hh
  injection hh with hh2
  subst hh2
  exact ⟨rfl, le_of_lt (lt_of_not_le hnp), rfl⟩

theorem convert_tax_row_shape {r : RawRecord} {row : TVRow}
    (h : convert_tax_row r = Except.ok (some row)) :
    row.side = "Taxes and fees" ∧ 0 ≤ row.qty ∧ row.symbol = "$CASH" := by
  unfold convert_tax_row at h
  dsimp only at h
  split at h
  next => exact Option.noConfusion (Except.ok.inj h)
  next hdesc =>
  split at h
  next => exact Option.noConfusion (Except.ok.inj h)
  next hamt =>
  split at h
  next hp => exact Except.noConfusion h
  next amount hp =>
  split at h
  next hnn => exact Option.noConfusion (Except.ok.inj h)
  next hnn =>
  injection h with hh
  injection hh with hh2
  subst hh2
  exact ⟨rfl, abs_nonneg _, rfl⟩

/-! ## Helper lemmas: the file processor -/

theorem process_sections_ok {m : List (String × String)}
    {ts cs ds xs : List RawRecord} {out : List TVRow}
    (h : process_sections m ts cs ds xs = Except.ok out) :
    ∃ a b c d, convert_trades m ts = Except.ok a
      ∧ convert_cash_transactions "" cs = Except.ok b
      ∧ convert_dividends ds = Except.ok c
      ∧ convert_taxes xs = Except.ok d
      ∧ out = a ++ b ++ c ++ d := by
  unfold process_sections at h
  split at h
  next e h1 => exact Except.noConfusion h
  next a h1 =>
  split at h
  next e h2 => exact Except.noConfusion h
  next b h2 =>
  split at h
  next e h3 => exact Except.noConfusion h
  next c h3 =>
  split at h
  next e h4 => exact Except.noConfusion h
  next d h4 =>
  injection h with hh
  exact ⟨a, b, c, d, h1, h2, h3, h4, hh.symm⟩

/-! ## Claim theorems -/

/-- C1, counterexample to the claim as stated: the deduplication pass does
not always produce pairwise-distinct names. On the header
`["A", "A", "A_2"]` the renaming of the second `A` collides with the
literal field name `A_2`, so the resulting list has a duplicate. -/
theorem claim1_counterexample :
    dedupHeaders ["A", "A", "A_2"] = ["A", "A_2", "A_2"]
    ∧ ¬ (dedupHeaders ["A", "A", "A_2"]).Nodup :=
  ⟨by decide, by decide⟩

/-- C1 (amended): the deduplication pass keeps the list length and order,
maps the k-th occurrence of each name to itself when k = 1 and to the
name with the suffix `_k` when k ≥ 2, and — provided no original field
name contains an underscore — the resulting list has pairwise-distinct
names. A data row `["v1", "v2", "v3"]` zipped against the deduplicated
header `[A, A, A]` exposes its values under `A`, `A_2`, `A_3`. -/
theorem claim1_header_dedup (hs : List String) :
    (dedupHeaders hs).length = hs.length
    ∧ (∀ i, i < hs.length →
        (dedupHeaders hs).getD i ""
          = renameDup (hs.getD i "") ((hs.take (i + 1)).count (hs.getD i "")))
    ∧ ((∀ h ∈ hs, '_' ∉ h.data) → (dedupHeaders hs).Nodup)
    ∧ dedupHeaders ["A", "A", "A"] = ["A", "A_2", "A_3"]
    ∧ dictGet (buildRecord (dedupHeaders ["A", "A", "A"]) ["v1", "v2", "v3"]) "A"
        = some "v1"
    ∧ dictGet (buildRecord (dedupHeaders ["A", "A", "A"]) ["v1", "v2", "v3"]) "A_2"
        = some "v2"
    ∧ dictGet (buildRecord (dedupHeaders ["A", "A", "A"]) ["v1", "v2", "v3"]) "A_3"
        = some "v3" := by
  refine ⟨dedupHdrAux_length hs _, ?_, fun hw => dedupHdrAux_nodup hs _ hw,
    by decide, by decide, by decide, by decide⟩
  intro i hi
  have hch := dedupHdrAux_getD hs (fun _ => 0) i hi
  simpa [dedupHeaders] using hch

/-- Witness for C1: instances of the positional characterization and of
the distinctness clause at the concrete header `["Sym", "Sym", "Qty"]`. -/
theorem claim1_header_dedup_witness :
    (dedupHeaders ["Sym", "Sym", "Qty"]).getD 1 ""
      = renameDup ((["Sym", "Sym", "Qty"] : List String).getD 1 "")
          (((["Sym", "Sym", "Qty"] : List String).take 2).count
            ((["Sym", "Sym", "Qty"] : List String).getD 1 ""))
    ∧ (dedupHeaders ["Sym", "Sym", "Qty"]).Nodup :=
  ⟨(claim1_header_dedup ["Sym", "Sym", "Qty"]).2.1 1 (by decide),
   (claim1_header_dedup ["Sym", "Sym", "Qty"]).2.2.1 (by decide)⟩

/-- C2: the merger keeps a subsequence of its input whose identity keys
(Symbol, Side, Qty, Fill Price, Closing Time) are pairwise distinct, every
input key is represented, and each kept record is the first occurrence of
its key in file-then-row order; two rows agreeing on the five key fields
but differing in Commission merge into one record carrying the first
row's Commission. -/
theorem claim2_merge_dedup (xs : List TVRow) :
    (dedup_rows xs).Sublist xs
    ∧ ((dedup_rows xs).map dedup_key).Nodup
    ∧ (∀ r ∈ xs, ∃ s ∈ dedup_rows xs, dedup_key s = dedup_key r)
    ∧ (∀ r ∈ dedup_rows xs, ∃ l1 l2, xs = l1 ++ r :: l2
        ∧ ∀ y ∈ l1, dedup_key y ≠ dedup_key r)
    ∧ dedup_rows [sampleMergeRowA, sampleMergeRowB] = [sampleMergeRowA]
    ∧ dedup_key sampleMergeRowA = dedup_key sampleMergeRowB
    ∧ sampleMergeRowA.commission ≠ sampleMergeRowB.commission := by
  refine ⟨dedup_rows_aux_sublist xs [], (dedup_rows_aux_keys xs []).1, ?_, ?_,
    by decide, by decide, by decide⟩
  · intro r hr
    rcases dedup_rows_aux_covers xs [] r hr with hmem | hmem
    · exact absurd hmem (List.not_mem_nil _)
    · exact hmem
  · intro r hr
    exact (dedup_rows_aux_first xs [] r hr).2

/-- Witness for C2: the key-coverage and first-occurrence clauses applied
to the two overlapping sample rows. -/
theorem claim2_merge_dedup_witness :
    ∃ s ∈ dedup_rows [sampleMergeRowA, sampleMergeRowB],
      dedup_key s = dedup_key sampleMergeRowB :=
  (claim2_merge_dedup [sampleMergeRowA, sampleMergeRowB]).2.2.1
    sampleMergeRowB (by decide)

/-- C6: deduplication is idempotent — running the merger's dedup loop on a
record list concatenated with itself gives the same output as running it
on the list once. -/
theorem claim6_dedup_idempotent (xs : List TVRow) :
    dedup_rows (xs ++ xs) = dedup_rows xs := by
  unfold dedup_rows
  rw [dedup_rows_aux_append]
  have hnil : dedup_rows_aux (dedup_seen [] xs) xs = [] := by
    apply dedup_rows_aux_all_seen
    intro r hr
    rw [mem_dedup_seen]
    exact Or.inr (List.mem_map_of_mem _ hr)
  rw [hnil, List.append_nil]

/-- C5: the merged output is sorted ascending by Closing Time compared
lexicographically as strings (so adjacent rows are ordered and all rows
with an empty timestamp come first), the output is a permutation of the
input, and the sort is stable: rows with equal sort key keep their
relative input order. -/
theorem claim5_sort_stable (xs : List TVRow) :
    (sort_rows xs).Perm xs
    ∧ (sort_rows xs).Pairwise (fun a b => sort_key a ≤ sort_key b)
    ∧ (∀ i, i + 1 < (sort_rows xs).length →
        sort_key ((sort_rows xs).getD i default)
          ≤ sort_key ((sort_rows xs).getD (i + 1) default))
    ∧ (∀ t, (sort_rows xs).filter (fun r => decide (sort_key r = t))
        = xs.filter (fun r => decide (sort_key r = t)))
    ∧ (∀ i j, i ≤ j → j < (sort_rows xs).length →
        sort_key ((sort_rows xs).getD j default) = "" →
        sort_key ((sort_rows xs).getD i default) = "") := by
  have hpw := sort_rows_pairwise xs
  refine ⟨List.mergeSort_perm xs row_le, hpw, ?_, sort_rows_filter xs, ?_⟩
  · intro i hi
    have hadj := List.pairwise_iff_getElem.mp hpw i (i + 1) (by omega) hi (by omega)
    rwa [List.getD_eq_getElem _ _ (by omega), List.getD_eq_getElem _ _ hi]
  · intro i j hij hj hempty
    rcases Nat.eq_or_lt_of_le hij with rfl | hlt
    · exact hempty
    · have hk := List.pairwise_iff_getElem.mp hpw i j (by omega) hj hlt
      rw [List.getD_eq_getElem _ _ hj] at hempty
      rw [List.getD_eq_getElem _ _ (by omega : i < (sort_rows xs).length)]
      exact str_le_empty (hempty ▸ hk)

/-- Witness for C5: the adjacency and stability clauses applied to a
concrete two-row list. -/
theorem claim5_sort_stable_witness :
    sort_key ((sort_rows [sampleMergeRowA, sampleMergeRowB]).getD 0 default)
      ≤ sort_key ((sort_rows [sampleMergeRowA, sampleMergeRowB]).getD 1 default) :=
  (claim5_sort_stable [sampleMergeRowA, sampleMergeRowB]).2.2.1 0
    (by simp [sort_rows])

/-- C7: building a raw record pads a short data row with empty strings and
truncates a long one, so the record binds exactly the header's field
names, in order: its keys are the header, position i holds the row's i-th
field when present and the empty string otherwise. -/
theorem claim7_pad_truncate (hs ds : List String) :
    (buildRecord hs ds).map Prod.fst = hs
    ∧ (buildRecord hs ds).length = hs.length
    ∧ (∀ i, i < hs.length → i < ds.length →
        (buildRecord hs ds).getD i ("", "") = (hs.getD i "", ds.getD i ""))
    ∧ (∀ i, i < hs.length → ds.length ≤ i →
        (buildRecord hs ds).getD i ("", "") = (hs.getD i "", "")) := by
  have hge : hs.length ≤ (padData ds hs.length).length := by
    simp only [padData, List.length_append, List.length_replicate]
    omega
  have hblen : (buildRecord hs ds).length = hs.length := by
    simp only [buildRecord, List.length_zip]
    omega
  refine ⟨List.map_fst_zip _ _ hge, hblen, ?_, ?_⟩
  · intro i hi hid
    have hib : i < (buildRecord hs ds).length := by omega
    rw [List.getD_eq_getElem _ _ hib, List.getD_eq_getElem _ _ hi,
      List.getD_eq_getElem _ _ hid]
    simp only [buildRecord, List.getElem_zip, Prod.mk.injEq]
    refine ⟨trivial, ?_⟩
    simp only [padData]
    exact List.getElem_append_left hid
  · intro i hi hid
    have hib : i < (buildRecord hs ds).length := by omega
    rw [List.getD_eq_getElem _ _ hib, List.getD_eq_getElem _ _ hi]
    simp only [buildRecord, List.getElem_zip, Prod.mk.injEq]
    refine ⟨trivial, ?_⟩
    have hpi : i < (padData ds hs.length).length := by omega
    simp only [padData] at hpi ⊢
    rw [List.getElem_append_right hid]
    exact List.getElem_replicate _ _

/-- Witness for C7: the padding and truncation clauses at a concrete
header and data row. -/
theorem claim7_pad_truncate_witness :
    (buildRecord ["A", "B"] ["x"]).getD 0 ("", "")
      = ((["A", "B"] : List String).getD 0 "", (["x"] : List String).getD 0 "")
    ∧ (buildRecord ["A", "B"] ["x"]).getD 1 ("", "")
      = ((["A", "B"] : List String).getD 1 "", "") :=
  ⟨(claim7_pad_truncate ["A", "B"] ["x"]).2.2.1 0 (by decide) (by decide),
   (claim7_pad_truncate ["A", "B"] ["x"]).2.2.2 1 (by decide) (by decide)⟩

/-- C3: a successful trades conversion emits exactly one record per input
record passing the two filters (discriminator `"Order"`, asset class
`"股票"`), and every emitted record comes from such a record with
Side `Buy` for a positive parsed quantity, `Sell` otherwise, and Qty the
quantity's absolute value; concretely, quantity `-50` gives Side=Sell,
Qty=50 and quantity `50` gives Side=Buy, Qty=50. -/
theorem claim3_trades_filter_sign (m : List (String × String))
    (rs : List RawRecord) (out : List TVRow)
    (h : convert_trades m rs = Except.ok out) :
    (out.length = (rs.filter trade_filter).length
      ∧ ∀ row ∈ out, ∃ r ∈ rs, trade_filter r
          ∧ ∃ s q, dictGet r "数量" = some s ∧ parseNum s = some q
              ∧ row.side = (if 0 < q then "Buy" else "Sell") ∧ row.qty = |q|)
    ∧ convert_trades [] [sampleSellRec] = Except.ok [sampleSellRow]
    ∧ sampleSellRow.side = "Sell" ∧ sampleSellRow.qty = 50
    ∧ convert_trades [] [sampleBuyRec, sampleSummaryRec] = Except.ok [sampleBuyRow]
    ∧ sampleBuyRow.side = "Buy" ∧ sampleBuyRow.qty = 50 :=
  ⟨convert_trades_ok rs m out h, by decide, rfl, rfl, by decide, rfl, rfl⟩

/-- Witness for C3: the count clause applied to a one-record input. -/
theorem claim3_trades_filter_sign_witness :
    ([sampleSellRow] : List TVRow).length
      = (([sampleSellRec] : List RawRecord).filter trade_filter).length :=
  ((claim3_trades_filter_sign [] [sampleSellRec] [sampleSellRow] (by decide)).1).1

/-- C4: every record emitted by a successful run of the four converters
has a non-negative Qty and a Side from the fixed enumeration. -/
theorem claim4_qty_side_invariant (m : List (String × String))
    (ts cs ds xs : List RawRecord) (out : List TVRow)
    (h : process_sections m ts cs ds xs = Except.ok out) :
    ∀ row ∈ out, 0 ≤ row.qty
      ∧ row.side ∈ (["Buy", "Sell", "Deposit", "Withdrawal", "Dividend",
          "Taxes and fees"] : List String) := by
  obtain ⟨a, b, c, d, ha, hb, hc, hd, rfl⟩ := process_sections_ok h
  intro row hrow
  rcases List.mem_append.mp hrow with h3 | hd4
  · rcases List.mem_append.mp h3 with h2 | hc3
    · rcases List.mem_append.mp h2 with ha1 | hb2
      · obtain ⟨-, hmem⟩ := convert_trades_ok ts m a ha
        obtain ⟨r2, -, -, s, q, -, -, hside, hqty⟩ := hmem row ha1
        refine ⟨by rw [hqty]; exact abs_nonneg q, ?_⟩
        by_cases hq : 0 < q
        · rw [hside, if_pos hq]; simp
        · rw [hside, if_neg hq]; simp
      · unfold convert_cash_transactions at hb
        obtain ⟨r2, -, hok⟩ := convert_rows_ok_mem cs convert_cash_row b hb row hb2
        obtain ⟨hsides, hq, -⟩ := convert_cash_row_shape hok
        refine ⟨hq, ?_⟩
        rcases hsides with hsd | hsd <;> rw [hsd] <;> simp
    · unfold convert_dividends at hc
      obtain ⟨r2, -, hok⟩ := convert_rows_ok_mem ds convert_dividend_row c hc row hc3
      obtain ⟨hside, hq, -⟩ := convert_dividend_row_shape hok
      exact ⟨hq, by rw [hside]; simp⟩
  · unfold convert_taxes at hd
    obtain ⟨r2, -, hok⟩ := convert_rows_ok_mem xs convert_tax_row d hd row hd4
    obtain ⟨hside, hq, -⟩ := convert_tax_row_shape hok
    exact ⟨hq, by rw [hside]; simp⟩

/-- Witness for C4: the invariant instantiated on a concrete run. -/
theorem claim4_qty_side_invariant_witness :
    0 ≤ sampleSellRow.qty
    ∧ sampleSellRow.side ∈ (["Buy", "Sell", "Deposit", "Withdrawal", "Dividend",
        "Taxes and fees"] : List String) :=
  claim4_qty_side_invariant [] [sampleSellRec] [] [] [] [sampleSellRow]
    (by decide) sampleSellRow (by decide)

/-- C8: when a record has passed a converter's category and non-empty
filters but its quantity (trades) or amount (cash) cell does not parse as
a number, the converter returns an error instead of skipping the record,
and a converter error makes the whole file's processing fail. -/
theorem claim8_numeric_fatal :
    (∀ (m : List (String × String)) (r : RawRecord) (rs : List RawRecord)
        (s : String), trade_filter r → dictGet r "数量" = some s →
        parseNum s = none → ∃ e, convert_trades m (r :: rs) = Except.error e)
    ∧ (∀ (lbl : String) (r : RawRecord) (rs : List RawRecord),
        pyStrip ((dictGet r "描述").getD "") ≠ "" →
        pyStrip ((dictGet r "金额").getD "") ≠ "" →
        parseNum (pyStrip ((dictGet r "金额").getD "")) = none →
        ∃ e, convert_cash_transactions lbl (r :: rs) = Except.error e)
    ∧ (∀ (m : List (String × String)) (ts cs ds xs : List RawRecord)
        (e : String), convert_trades m ts = Except.error e →
        process_sections m ts cs ds xs = Except.error e) := by
  refine ⟨?_, ?_, ?_⟩
  · intro m r rs s hf hs hp
    have hconj : dictGet r "DataDiscriminator" = some "Order"
        ∧ dictGet r "资产分类" = some "股票" := by
      simpa [trade_filter, Bool.and_eq_true, decide_eq_true_eq] using hf
    have hrowerr : ∃ e, convert_trade_row m r = Except.error e := by
      cases hcr : convert_trade_row m r with
      | error e => exact ⟨e, rfl⟩
      | ok row =>
        obtain ⟨-, -, -, -, -, s2, q, hs2, hq, -, -⟩ := convert_trade_row_ok hcr
        rw [hs] at hs2
        injection hs2 with he
        subst he
        rw [hp] at hq
        exact Option.noConfusion hq
    obtain ⟨e, he⟩ := hrowerr
    refine ⟨e, ?_⟩
    simp only [convert_trades]
    rw [if_neg (not_not_intro hconj.1), if_neg (not_not_intro hconj.2), he]
  · intro lbl r rs hdesc hamt hp
    refine ⟨"ValueError: 金额", ?_⟩
    have hrow : convert_cash_row r = Except.error "ValueError: 金额" := by
      unfold convert_cash_row
      rw [if_neg hdesc, if_neg hamt, hp]
    unfold convert_cash_transactions
    simp only [convert_rows]
    rw [hrow]
  · intro m ts cs ds xs e he
    unfold process_sections
    rw [he]

/-- Witness for C8: applying the trades and cash clauses to concrete
rows with unparsable numeric cells. -/
theorem claim8_numeric_fatal_witness :
    (∃ e, convert_trades [] [badQtyRec] = Except.error e)
    ∧ (∃ e, convert_cash_transactions "" [badCashRec] = Except.error e) :=
  ⟨claim8_numeric_fatal.1 [] badQtyRec [] "N/A" (by decide) (by decide) (by decide),
   claim8_numeric_fatal.2.1 "" badCashRec [] (by decide) (by decide) (by decide)⟩

/-- C9: a trades-section record that passes both filters and whose
quantity parses to exactly 0 is converted (not skipped) with Side=Sell
and Qty=0. -/
theorem claim9_zero_qty_sell :
    (∀ (m : List (String × String)) (r : RawRecord) (row : TVRow) (s : String),
      convert_trade_row m r = Except.ok row →
      dictGet r "数量" = some s → parseNum s = some 0 →
      row.side = "Sell" ∧ row.qty = 0)
    ∧ convert_trades [] [sampleZeroRec] = Except.ok [sampleZeroRow]
    ∧ sampleZeroRow.side = "Sell" ∧ sampleZeroRow.qty = 0 := by
  refine ⟨?_, by decide, rfl, rfl⟩
  intro m r row s hok hs hp
  obtain ⟨-, -, -, -, -, s2, q, hs2, hq, hside, hqty⟩ := convert_trade_row_ok hok
  rw [hs] at hs2
  injection hs2 with he
  subst he
  rw [hp] at hq
  injection hq with he2
  subst he2
  constructor
  · rw [hside, if_neg (lt_irrefl 0)]
  · rw [hqty, abs_zero]

/-- Witness for C9: the zero-quantity clause applied to the concrete
zero-quantity sample row. -/
theorem claim9_zero_qty_sell_witness :
    sampleZeroRow.side = "Sell" ∧ sampleZeroRow.qty = 0 :=
  claim9_zero_qty_sell.1 [] sampleZeroRec sampleZeroRow "0"
    (by decide) (by decide) (by decide)

/-- C10: a trades-section record passing both filters but lacking any one
of the symbol, currency, quantity, price, commission or date/time fields
makes the trades converter fail with an error rather than skip the
record. -/
theorem claim10_missing_field_error (m : List (String × String)) (r : RawRecord)
    (rs : List RawRecord) (hf : trade_filter r)
    (hmiss : dictGet r "代码" = none ∨ dictGet r "货币" = none
      ∨ dictGet r "数量" = none ∨ dictGet r "交易价格" = none
      ∨ dictGet r "佣金/税" = none ∨ dictGet r "日期/时间" = none) :
    ∃ e, convert_trades m (r :: rs) = Except.error e := by
  have hconj : dictGet r "DataDiscriminator" = some "Order"
      ∧ dictGet r "资产分类" = some "股票" := by
    simpa [trade_filter, Bool.and_eq_true, decide_eq_true_eq] using hf
  have hrowerr : ∃ e, convert_trade_row m r = Except.error e := by
    cases hcr : convert_trade_row m r with
    | error e => exact ⟨e, rfl⟩
    | ok row =>
      obtain ⟨⟨v1, h1⟩, ⟨v2, h2⟩, ⟨v3, h3, -⟩, ⟨v4, h4⟩, ⟨v5, h5⟩, s, q, hs, -, -, -⟩ :=
        convert_trade_row_ok hcr
      rcases hmiss with hn | hn | hn | hn | hn | hn
      · rw [h1] at hn; exact Option.noConfusion hn
      · rw [h2] at hn; exact Option.noConfusion hn
      · rw [hs] at hn; exact Option.noConfusion hn
      · rw [h3] at hn; exact Option.noConfusion hn
      · rw [h4] at hn; exact Option.noConfusion hn
      · rw [h5] at hn; exact Option.noConfusion hn
  obtain ⟨e, he⟩ := hrowerr
  refine ⟨e, ?_⟩
  simp only [convert_trades]
  rw [if_neg (not_not_intro hconj.1), if_neg (not_not_intro hconj.2), he]

/-- Witness for C10: the missing-quantity case on a concrete record. -/
theorem claim10_missing_field_error_witness :
    ∃ e, convert_trades [] [missingQtyRec] = Except.error e :=
  claim10_missing_field_error [] missingQtyRec [] (by decide)
    (Or.inr (Or.inr (Or.inl (by decide))))
